import Mathlib

/-!
Shallow embedding of the ledger core of `src/src/wallet.js` (classes
`Transaction`, `Block`, `Blockchain`).

Modelling conventions:
* JS numbers are modelled as `ℚ` (all amounts, fees and balances in the
  source are exact decimals and only `+ - * max <` are used on them).
* The SHA-256 hex digest is modelled as a parameter `sha : String → String`;
  every definition and theorem is uniform in it.  Concrete witnesses
  instantiate `sha` with constant functions.
* JS `Map` objects are modelled as association lists with first-match
  lookup and first-match overwrite (`mget`/`mset`), which matches the
  read/update/insertion-order semantics of `Map.get`/`Map.set`.
  Balance and token maps are keyed by `Option String` because the source
  uses `transaction.from`, which is `null` for system transactions.
* The unbounded proof-of-work `while` loop is modelled with explicit fuel
  (`mineLoop`); `none` models non-termination within the given fuel.
* JS exceptions are modelled with `Except Err`; for `minePendingTransactions`
  (which mutates `this` before a possible throw inside `updateBalances`)
  the result is the mutated state paired with the escaped error, because a
  JS `throw` does not undo prior mutations.
* `Transaction.id` (a random UUID) and the event emissions are omitted;
  no modelled code path reads them.  The `data` payload is modelled by its
  only read field, `tokenName`.
-/

/-- JS falsiness of an optional string (`null`/`undefined`/`""` are falsy). -/
def optFalsy : Option String → Bool
  | none => true
  | some s => s = ""

/-- First-match lookup in an association list (JS `Map.get`). -/
def mfind {κ α : Type} [DecidableEq κ] : List (κ × α) → κ → Option α
  | [], _ => none
  | (k', v) :: rest, k => if k' = k then some v else mfind rest k

/-- Lookup with a default (JS `map.get(k) || d`). -/
def mget {κ α : Type} [DecidableEq κ] (m : List (κ × α)) (k : κ) (d : α) : α :=
  (mfind m k).getD d

/-- First-match overwrite, appending when absent (JS `Map.set`). -/
def mset {κ α : Type} [DecidableEq κ] : List (κ × α) → κ → α → List (κ × α)
  | [], k, v => [(k, v)]
  | (k', v') :: rest, k, v =>
    if k' = k then (k, v) :: rest else (k', v') :: mset rest k v

/-- Sum of all values of a rational-valued map. -/
def msum {κ : Type} (m : List (κ × ℚ)) : ℚ :=
  (m.map Prod.snd).sum

/-- Transaction record (`class Transaction`, wallet.js:260-271).
`from`/`to` are `Option String` because system transactions carry `null`. -/
structure Transaction where
  from_ : Option String
  to_ : Option String
  amount : ℚ
  type : String
  tokenName : String
  timestamp : Nat
  fee : ℚ
  signature : Option String
deriving DecidableEq

/-- `Transaction.calculateFee` (wallet.js:273-278):
`max(baseFee, amount * 0.0001)` with `baseFee = 0.001`. -/
def calculateFee (amount : ℚ) : ℚ :=
  let baseFee : ℚ := 0.001
  let amountFee : ℚ := amount * 0.0001
  max baseFee amountFee

/-- The `Transaction` constructor (wallet.js:261-271): the fee is the
custom fee when one is passed, else `calculateFee(amount)`; the signature
starts out `null`. -/
def newTransaction (from_ to_ : Option String) (amount : ℚ) (type : String)
    (tokenName : String) (timestamp : Nat) (customFee : Option ℚ) : Transaction :=
  { from_ := from_
    to_ := to_
    amount := amount
    type := type
    tokenName := tokenName
    timestamp := timestamp
    fee := match customFee with
           | some f => f
           | none => calculateFee amount
    signature := none }

/-- `Transaction.sign` (wallet.js:287-292), reduced to its observable
effect on the modelled state: it installs a non-null signature string. -/
def signed (t : Transaction) (sig : String) : Transaction :=
  { t with signature := some sig }

/-- `Transaction.isValid` (wallet.js:294-306): system kinds are
unconditionally valid; otherwise a present, non-empty signature and a
truthy `from` are required (no cryptographic verification). -/
def Transaction.isValid (t : Transaction) : Bool :=
  if t.type = "mining_reward" ∨ t.type = "mint_token" then true
  else if optFalsy t.signature then false
  else if optFalsy t.from_ then false
  else decide ((t.signature.getD "").length > 0)

/-- Block record (`class Block`, wallet.js:312-322).  The constructor
hard-codes `difficulty = 4`. -/
structure Block where
  timestamp : Nat
  transactions : List Transaction
  previousHash : String
  nonce : Nat
  hash : String
  miner : Option String
  reward : ℚ
  difficulty : Nat
deriving DecidableEq

/-- Serialization of an optional address inside `JSON.stringify`. -/
def serializeOpt : Option String → String
  | none => "null"
  | some s => s

/-- Deterministic stand-in for `JSON.stringify` of one transaction. -/
def serializeTx (t : Transaction) : String :=
  serializeOpt t.from_ ++ "," ++ serializeOpt t.to_ ++ "," ++ toString t.amount
    ++ "," ++ t.type ++ "," ++ t.tokenName ++ "," ++ toString t.timestamp
    ++ "," ++ toString t.fee ++ "," ++ serializeOpt t.signature

/-- Deterministic stand-in for `JSON.stringify` of a transaction list. -/
def serializeTxs (l : List Transaction) : String :=
  String.intercalate ";" (l.map serializeTx)

/-- `Block.calculateHash` (wallet.js:324-334): digest of
`previousHash + timestamp + JSON.stringify(transactions) + nonce`.
Note that `hash`, `miner`, `reward` and `difficulty` are not digested. -/
def Block.calculateHash (sha : String → String) (b : Block) : String :=
  sha (b.previousHash ++ toString b.timestamp ++ serializeTxs b.transactions
        ++ toString b.nonce)

/-- The `Block` constructor (wallet.js:313-322): `nonce = 0`, the hash is
computed immediately, `miner = null`, `reward = 0`, `difficulty = 4`. -/
def newBlock (sha : String → String) (timestamp : Nat)
    (transactions : List Transaction) (previousHash : String) : Block :=
  let b : Block :=
    { timestamp := timestamp
      transactions := transactions
      previousHash := previousHash
      nonce := 0
      hash := ""
      miner := none
      reward := 0
      difficulty := 4 }
  { b with hash := Block.calculateHash sha b }

/-- JS `s.substring(0, n)` for ASCII strings. -/
def substringTo (s : String) (n : Nat) : String :=
  String.mk (s.toList.take n)

/-- The mining target `Array(difficulty + 1).join('0')`: `difficulty`
zero characters. -/
def zeroTarget (difficulty : Nat) : String :=
  String.mk (List.replicate difficulty '0')

/-- The proof-of-work `while` loop of `Block.mineBlock` (wallet.js:343-352)
with explicit fuel: while the first `difficulty` characters of `hash`
differ from the target, increment `nonce` and recompute `hash`. -/
def mineLoop (sha : String → String) (difficulty : Nat) : Nat → Block → Option Block
  | 0, b =>
    if substringTo b.hash difficulty = zeroTarget difficulty then some b else none
  | fuel + 1, b =>
    if substringTo b.hash difficulty = zeroTarget difficulty then some b
    else
      let b1 := { b with nonce := b.nonce + 1 }
      mineLoop sha difficulty fuel { b1 with hash := Block.calculateHash sha b1 }

/-- `Block.calculateReward` (wallet.js:367-372):
base reward 10 plus the fees of the contained transactions. -/
def calculateReward (b : Block) : ℚ :=
  let baseReward : ℚ := 10
  let feeReward : ℚ := b.transactions.foldl (fun sum tx => sum + tx.fee) 0
  baseReward + feeReward

/-- `Block.mineBlock` (wallet.js:336-365): run the proof-of-work search,
then set `miner` and `reward`. -/
def mineBlock (sha : String → String) (fuel : Nat) (difficulty : Nat)
    (minerAddress : String) (b : Block) : Option Block :=
  (mineLoop sha difficulty fuel b).map fun m =>
    { m with miner := some minerAddress, reward := calculateReward m }

/-- `Block.hasValidTransactions` (wallet.js:374-376). -/
def Block.hasValidTransactions (b : Block) : Bool :=
  b.transactions.all Transaction.isValid

/-- Token metadata registered by `createToken` (wallet.js:508-514). -/
structure TokenInfo where
  name : String
  symbol : String
  totalSupply : ℚ
  creator : String
  createdAt : Nat
deriving DecidableEq

/-- Error kinds thrown by the ledger (wallet.js throw sites). -/
inductive Err where
  | missingParties
  | invalidSignature
  | insufficientFunds
  | insufficientTokenBalance
  | tokenAlreadyExists
deriving DecidableEq

/-- Chain state (`class Blockchain`, wallet.js:382-395). -/
structure Blockchain where
  chain : List Block
  difficulty : Nat
  pendingTransactions : List Transaction
  miningReward : ℚ
  balances : List (Option String × ℚ)
  tokens : List (Option String × List (String × ℚ))
  tokenInfo : List (String × TokenInfo)
deriving DecidableEq

/-- `Blockchain.createGenesisBlock` (wallet.js:397-401): a block with no
transactions and previous hash `"0"`, its hash recomputed once more. -/
def createGenesisBlock (sha : String → String) (ts : Nat) : Block :=
  let genesisBlock := newBlock sha ts [] "0"
  { genesisBlock with hash := Block.calculateHash sha genesisBlock }

/-- The `Blockchain` constructor (wallet.js:383-395): one genesis block,
difficulty 4, empty pool, mining reward 10, empty maps
(`initializeTestAccounts` only logs). -/
def newBlockchain (sha : String → String) (genesisTs : Nat) : Blockchain :=
  { chain := [createGenesisBlock sha genesisTs]
    difficulty := 4
    pendingTransactions := []
    miningReward := 10
    balances := []
    tokens := []
    tokenInfo := [] }

/-- A placeholder block; `getLatestBlock` needs a default for the (never
reachable) empty-chain case, mirroring `this.chain[this.chain.length-1]`. -/
def dummyBlock : Block :=
  { timestamp := 0, transactions := [], previousHash := "", nonce := 0
    hash := "", miner := none, reward := 0, difficulty := 4 }

/-- `Blockchain.getLatestBlock` (wallet.js:408-410). -/
def getLatestBlock (bc : Blockchain) : Block :=
  bc.chain.getLastD dummyBlock

/-- `Blockchain.getBalance` keyed the way the source keys its `Map`
(`this.balances.get(address) || 0`). -/
def getBalanceK (bc : Blockchain) (k : Option String) : ℚ :=
  mget bc.balances k 0

/-- `Blockchain.getBalance` (wallet.js:547-549). -/
def getBalance (bc : Blockchain) (address : String) : ℚ :=
  getBalanceK bc (some address)

/-- `Blockchain.getTokenBalance` (wallet.js:551-554). -/
def getTokenBalance (bc : Blockchain) (address : String) (tokenName : String) : ℚ :=
  mget (mget bc.tokens (some address) []) tokenName 0

/-- `Blockchain.addTransaction` (wallet.js:412-434): requires truthy
`from` and `to` (for every kind), then `isValid()`, then for `transfer`
a committed balance covering `amount + fee`; on success the transaction
is appended to the pending pool. -/
def addTransaction (bc : Blockchain) (t : Transaction) : Except Err Blockchain :=
  if optFalsy t.from_ || optFalsy t.to_ then .error .missingParties
  else if ! t.isValid then .error .invalidSignature
  else if t.type = "transfer" ∧ getBalanceK bc t.from_ < t.amount + t.fee then
    .error .insufficientFunds
  else .ok { bc with pendingTransactions := bc.pendingTransactions ++ [t] }

/-- `Blockchain.mintToken` (wallet.js:524-529). -/
def mintToken (bc : Blockchain) (tokenName : String) (to_ : Option String)
    (amount : ℚ) : Blockchain :=
  let userTokens := mget bc.tokens to_ []
  let currentAmount := mget userTokens tokenName 0
  { bc with tokens := mset bc.tokens to_ (mset userTokens tokenName (currentAmount + amount)) }

/-- `Blockchain.transferToken` (wallet.js:531-545).  In the source
`fromTokens` and `toTokens` are the same `Map` object when `from == to`
and the key is present, so the two `set` calls cancel out; when `from ==
to` and the key is absent, two distinct fresh `Map`s are created and the
second outer `set` overwrites the first.  Both aliasing cases are
reproduced explicitly here. -/
def transferToken (bc : Blockchain) (tokenName : String)
    (from_ to_ : Option String) (amount : ℚ) : Except Err Blockchain :=
  let fromTokens := mget bc.tokens from_ []
  let fromAmount := mget fromTokens tokenName 0
  if fromAmount < amount then .error .insufficientTokenBalance
  else if from_ = to_ then
    if (mfind bc.tokens from_).isSome then
      .ok { bc with tokens := mset bc.tokens from_ (mset fromTokens tokenName fromAmount) }
    else
      .ok { bc with
            tokens := mset bc.tokens to_
              (mset [] tokenName (mget ([] : List (String × ℚ)) tokenName 0 + amount)) }
  else
    let toTokens := mget bc.tokens to_ []
    .ok { bc with
          tokens := mset (mset bc.tokens from_ (mset fromTokens tokenName (fromAmount - amount)))
            to_ (mset toTokens tokenName (mget toTokens tokenName 0 + amount)) }

/-- One arm of the `switch` in `Blockchain.updateBalances`
(wallet.js:471-500); only `transfer_token` can throw, and it throws
before any mutation. -/
def applyTx (bc : Blockchain) (t : Transaction) : Except Err Blockchain :=
  if t.type = "transfer" then
    let fromBalance := mget bc.balances t.from_ 0
    let toBalance := mget bc.balances t.to_ 0
    .ok { bc with
          balances := mset (mset bc.balances t.from_ (fromBalance - t.amount - t.fee))
            t.to_ (toBalance + t.amount) }
  else if t.type = "mining_reward" then
    let minerBalance := mget bc.balances t.to_ 0
    .ok { bc with balances := mset bc.balances t.to_ (minerBalance + t.amount) }
  else if t.type = "mint_token" then
    .ok (mintToken bc t.tokenName t.to_ t.amount)
  else if t.type = "transfer_token" then
    transferToken bc t.tokenName t.from_ t.to_ t.amount
  else .ok bc

/-- The `forEach` of `Blockchain.updateBalances`: transactions are applied
in order; a throw escapes, leaving the mutations of the earlier
transactions in place. -/
def applyTxs : Blockchain → List Transaction → Blockchain × Option Err
  | bc, [] => (bc, none)
  | bc, t :: rest =>
    match applyTx bc t with
    | .ok bc' => applyTxs bc' rest
    | .error e => (bc, some e)

/-- `Blockchain.updateBalances` (wallet.js:471-500). -/
def updateBalances (bc : Blockchain) (b : Block) : Blockchain × Option Err :=
  applyTxs bc b.transactions

/-- `Blockchain.minePendingTransactions` (wallet.js:436-469): push a
`mining_reward` transaction (no fee override) into the pool, build a block
from the whole pool on top of the latest hash, mine it, append it to the
chain, apply balances, and clear the pool.  A throw inside
`updateBalances` escapes after the block was appended and before the pool
is cleared; the returned pair carries the state as mutated so far together
with the escaped error.  `none` models a proof-of-work search that did not
finish within `fuel` steps. -/
def minePendingTransactions (sha : String → String) (fuel : Nat)
    (bc : Blockchain) (miningRewardAddress : String) (blockTs txTs : Nat) :
    Option (Blockchain × Option Err) :=
  let rewardTransaction :=
    newTransaction none (some miningRewardAddress) bc.miningReward
      "mining_reward" "" txTs none
  let pending1 := bc.pendingTransactions ++ [rewardTransaction]
  let block0 := newBlock sha blockTs pending1 (getLatestBlock bc).hash
  match mineBlock sha fuel bc.difficulty miningRewardAddress block0 with
  | none => none
  | some block =>
    let bc1 := { bc with chain := bc.chain ++ [block], pendingTransactions := pending1 }
    match updateBalances bc1 block with
    | (bc2, some e) => some (bc2, some e)
    | (bc2, none) => some ({ bc2 with pendingTransactions := [] }, none)

/-- `Blockchain.createToken` (wallet.js:503-522): reject duplicate names,
register the metadata, credit the full supply to the creator. -/
def createToken (bc : Blockchain) (name symbol : String) (totalSupply : ℚ)
    (creator : String) (now : Nat) : Except Err Blockchain :=
  if (mfind bc.tokenInfo name).isSome then .error .tokenAlreadyExists
  else
    let creatorTokens := mget bc.tokens (some creator) []
    .ok { bc with
          tokenInfo := mset bc.tokenInfo name
            { name := name, symbol := symbol, totalSupply := totalSupply,
              creator := creator, createdAt := now },
          tokens := mset bc.tokens (some creator) (mset creatorTokens name totalSupply) }

/-- The loop body of `Blockchain.isChainValid` (wallet.js:563-582) from a
given predecessor: each block must have valid transactions, a hash equal
to its recomputed digest, and a `previousHash` linking to its predecessor. -/
def chainSegValid (sha : String → String) : Block → List Block → Bool
  | _, [] => true
  | prev, b :: rest =>
    (b.hasValidTransactions && b.hash == Block.calculateHash sha b
      && b.previousHash == prev.hash) && chainSegValid sha b rest

/-- `Blockchain.isChainValid` (wallet.js:563-582): the loop starts at
index 1, so the genesis block itself is never checked. -/
def isChainValid (sha : String → String) (bc : Blockchain) : Bool :=
  match bc.chain with
  | [] => true
  | g :: rest => chainSegValid sha g rest

/-- Total circulating balance of one token, summed over all addresses. -/
def tokenCirculation (bc : Blockchain) (tokenName : String) : ℚ :=
  (bc.tokens.map fun kv => mget kv.2 tokenName 0).sum

/-- States reachable from a freshly constructed `Blockchain` by
`addTransaction`, `minePendingTransactions` and `createToken` calls that
return normally (no escaped exception, and a terminating mining search). -/
inductive Reachable (sha : String → String) (gts : Nat) : Blockchain → Prop
  | init : Reachable sha gts (newBlockchain sha gts)
  | addTx {bc bc' : Blockchain} {t : Transaction} :
      Reachable sha gts bc → addTransaction bc t = .ok bc' → Reachable sha gts bc'
  | mine {bc bc' : Blockchain} {fuel : Nat} {addr : String} {blockTs txTs : Nat} :
      Reachable sha gts bc →
      minePendingTransactions sha fuel bc addr blockTs txTs = some (bc', none) →
      Reachable sha gts bc'
  | tok {bc bc' : Blockchain} {name symbol : String} {supply : ℚ}
      {creator : String} {now : Nat} :
      Reachable sha gts bc → createToken bc name symbol supply creator now = .ok bc' →
      Reachable sha gts bc'

/-- Constant digest used by the concrete witnesses: every content hashes
to `"0000"`, so a difficulty-4 search succeeds at once. -/
def sha0 : String → String := fun _ => "0000"

/-- Extract the state of a successful `addTransaction`/`createToken`. -/
def exOk (r : Except Err Blockchain) (d : Blockchain) : Blockchain :=
  match r with
  | .ok bc => bc
  | .error _ => d

/-- Extract the state of a terminating `minePendingTransactions`. -/
def mineOk (r : Option (Blockchain × Option Err)) (d : Blockchain) : Blockchain :=
  match r with
  | some (bc, _) => bc
  | none => d

/-! ### Map lemmas -/

theorem mfind_mset_ne {κ α : Type} [DecidableEq κ] (m : List (κ × α)) (k k' : κ)
    (v : α) (h : k' ≠ k) : mfind (mset m k v) k' = mfind m k' := by
  induction m with
  | nil => simp [mset, mfind, Ne.symm h]
  | cons p rest ih =>
    obtain ⟨k0, v0⟩ := p
    by_cases hk : k0 = k
    · subst hk
      simp [mset, mfind, h, Ne.symm h]
    · simp only [mset, if_neg hk]
      by_cases hk' : k0 = k'
      · subst hk'; simp [mfind]
      · simp [mfind, hk', ih]

theorem mget_mset_ne {κ α : Type} [DecidableEq κ] (m : List (κ × α)) (k k' : κ)
    (v : α) (d : α) (h : k' ≠ k) : mget (mset m k v) k' d = mget m k' d := by
  simp [mget, mfind_mset_ne m k k' v h]

theorem msum_cons {κ : Type} (p : κ × ℚ) (l : List (κ × ℚ)) :
    msum (p :: l) = p.2 + msum l := by
  simp [msum]

theorem msum_mset {κ : Type} [DecidableEq κ] (m : List (κ × ℚ)) (k : κ) (v : ℚ) :
    msum (mset m k v) = msum m - mget m k 0 + v := by
  induction m with
  | nil => simp [mset, msum, mget, mfind]
  | cons p rest ih =>
    obtain ⟨k0, v0⟩ := p
    by_cases hk : k0 = k
    · subst hk
      simp [mset, msum_cons, mget, mfind]
      ring
    · simp only [mset, if_neg hk, msum_cons, ih, mget, mfind, if_neg hk]
      ring

/-! ### Block construction and mining lemmas -/

theorem calculateHash_irrel (sha : String → String) (b : Block) (h : String)
    (m : Option String) (r : ℚ) :
    Block.calculateHash sha { b with hash := h, miner := m, reward := r }
      = Block.calculateHash sha b := rfl

theorem newBlock_hash (sha : String → String) (ts : Nat) (txs : List Transaction)
    (prev : String) :
    (newBlock sha ts txs prev).hash
      = Block.calculateHash sha (newBlock sha ts txs prev) := rfl

theorem mineLoop_spec (sha : String → String) (d : Nat) :
    ∀ (fuel : Nat) (b b' : Block), mineLoop sha d fuel b = some b' →
      substringTo b'.hash d = zeroTarget d
      ∧ (b.hash = Block.calculateHash sha b → b'.hash = Block.calculateHash sha b')
      ∧ b'.timestamp = b.timestamp ∧ b'.transactions = b.transactions
      ∧ b'.previousHash = b.previousHash ∧ b'.miner = b.miner
      ∧ b'.reward = b.reward ∧ b'.difficulty = b.difficulty := by
  intro fuel
  induction fuel with
  | zero =>
    intro b b' h
    simp only [mineLoop] at h
    split at h
    · cases h
      exact ⟨by assumption, fun hh => hh, rfl, rfl, rfl, rfl, rfl, rfl⟩
    · cases h
  | succ fuel ih =>
    intro b b' h
    simp only [mineLoop] at h
    split at h
    · cases h
      exact ⟨by assumption, fun hh => hh, rfl, rfl, rfl, rfl, rfl, rfl⟩
    · have h2 := ih _ _ h
      exact ⟨h2.1, fun _ => h2.2.1 rfl, h2.2.2.1, h2.2.2.2.1, h2.2.2.2.2.1,
        h2.2.2.2.2.2.1, h2.2.2.2.2.2.2.1, h2.2.2.2.2.2.2.2⟩

theorem mineBlock_spec (sha : String → String) (fuel d : Nat) (addr : String)
    (b b' : Block) (hb : b.hash = Block.calculateHash sha b)
    (h : mineBlock sha fuel d addr b = some b') :
    substringTo b'.hash d = zeroTarget d
    ∧ b'.hash = Block.calculateHash sha b'
    ∧ b'.miner = some addr
    ∧ b'.reward = calculateReward b'
    ∧ b'.timestamp = b.timestamp ∧ b'.transactions = b.transactions
    ∧ b'.previousHash = b.previousHash ∧ b'.difficulty = b.difficulty := by
  unfold mineBlock at h
  cases hm : mineLoop sha d fuel b with
  | none => rw [hm] at h; cases h
  | some m =>
    rw [hm] at h
    simp only [Option.map_some'] at h
    cases h
    have hs := mineLoop_spec sha d fuel b m hm
    refine ⟨hs.1, ?_, rfl, rfl, hs.2.2.1, hs.2.2.2.1, hs.2.2.2.2.1, hs.2.2.2.2.2.2.2⟩
    rw [calculateHash_irrel]
    exact hs.2.1 hb

theorem foldl_fee (l : List Transaction) :
    ∀ a : ℚ, l.foldl (fun sum tx => sum + tx.fee) a = a + (l.map Transaction.fee).sum := by
  induction l with
  | nil => intro a; simp
  | cons t rest ih => intro a; simp [ih]; ring

set_option maxRecDepth 20000

/-- C2: whenever `Block.mineBlock(difficulty, minerAddress)` terminates on a
block (whose stored hash satisfies the constructor invariant
`hash = calculateHash()`), the first `difficulty` characters of the
resulting hash are all `'0'`, the hash equals the recomputed content digest
over `(previousHash, timestamp, serialized transactions, nonce)`, the miner
field equals `minerAddress`, and the reward equals 10 plus the sum of the
fees of the transactions contained in the block. -/
theorem claim2_mineBlock_correct (sha : String → String) (d fuel : Nat)
    (addr : String) (b b' : Block) (hb : b.hash = Block.calculateHash sha b)
    (h : mineBlock sha fuel d addr b = some b') :
    b'.hash.toList.take d = List.replicate d '0'
    ∧ b'.hash = Block.calculateHash sha b'
    ∧ b'.miner = some addr
    ∧ b'.reward = 10 + (b'.transactions.map Transaction.fee).sum := by
  have hs := mineBlock_spec sha fuel d addr b b' hb h
  refine ⟨?_, hs.2.1, hs.2.2.1, ?_⟩
  · have h1 := hs.1
    simpa [substringTo, zeroTarget, String.ext_iff] using h1
  · rw [hs.2.2.2.1]
    simp [calculateReward, foldl_fee]

def blkW2 : Block := newBlock sha0 5 [] "p"

def blkW2m : Block := (mineBlock sha0 0 4 "m" blkW2).getD dummyBlock

/-- Witness for C2 at a concrete block mined at difficulty 4 under the
constant digest `sha0`. -/
theorem claim2_mineBlock_correct_witness :
    blkW2m.hash.toList.take 4 = List.replicate 4 '0'
    ∧ blkW2m.hash = Block.calculateHash sha0 blkW2m
    ∧ blkW2m.miner = some "m"
    ∧ blkW2m.reward = 10 + (blkW2m.transactions.map Transaction.fee).sum :=
  claim2_mineBlock_correct sha0 4 0 "m" blkW2 blkW2m (by rfl') (by rfl')

/-! ### Operation anatomy lemmas -/

theorem newBlock_transactions (sha : String → String) (ts : Nat)
    (txs : List Transaction) (prev : String) :
    (newBlock sha ts txs prev).transactions = txs := rfl

theorem newBlock_previousHash (sha : String → String) (ts : Nat)
    (txs : List Transaction) (prev : String) :
    (newBlock sha ts txs prev).previousHash = prev := rfl

theorem newBlock_difficulty (sha : String → String) (ts : Nat)
    (txs : List Transaction) (prev : String) :
    (newBlock sha ts txs prev).difficulty = 4 := rfl

theorem addTransaction_ok (bc bc' : Blockchain) (t : Transaction)
    (h : addTransaction bc t = .ok bc') :
    t.isValid = true
    ∧ bc' = { bc with pendingTransactions := bc.pendingTransactions ++ [t] } := by
  unfold addTransaction at h
  by_cases h1 : (optFalsy t.from_ || optFalsy t.to_) = true
  · rw [if_pos h1] at h; cases h
  · rw [if_neg h1] at h
    by_cases h2 : (! t.isValid) = true
    · rw [if_pos h2] at h; cases h
    · rw [if_neg h2] at h
      by_cases h3 : t.type = "transfer" ∧ getBalanceK bc t.from_ < t.amount + t.fee
      · rw [if_pos h3] at h; cases h
      · rw [if_neg h3] at h
        cases h
        exact ⟨by simpa using h2, rfl⟩

theorem createToken_ok (bc bc' : Blockchain) (n s : String) (sup : ℚ) (c : String)
    (now : Nat) (h : createToken bc n s sup c now = .ok bc') :
    bc'.chain = bc.chain ∧ bc'.pendingTransactions = bc.pendingTransactions := by
  unfold createToken at h
  split at h
  · cases h
  · cases h
    exact ⟨rfl, rfl⟩

theorem transferToken_ok_fields (bc bc' : Blockchain) (n : String)
    (f t : Option String) (a : ℚ) (h : transferToken bc n f t a = .ok bc') :
    bc'.chain = bc.chain ∧ bc'.pendingTransactions = bc.pendingTransactions
    ∧ bc'.difficulty = bc.difficulty ∧ bc'.miningReward = bc.miningReward := by
  simp only [transferToken] at h
  by_cases h1 : mget (mget bc.tokens f []) n 0 < a
  · rw [if_pos h1] at h; cases h
  · rw [if_neg h1] at h
    by_cases h2 : f = t
    · rw [if_pos h2] at h
      by_cases h3 : (mfind bc.tokens f).isSome = true
      · rw [if_pos h3] at h; cases h; exact ⟨rfl, rfl, rfl, rfl⟩
      · rw [if_neg h3] at h; cases h; exact ⟨rfl, rfl, rfl, rfl⟩
    · rw [if_neg h2] at h; cases h; exact ⟨rfl, rfl, rfl, rfl⟩

theorem applyTx_ok_fields (bc bc' : Blockchain) (t : Transaction)
    (h : applyTx bc t = .ok bc') :
    bc'.chain = bc.chain ∧ bc'.pendingTransactions = bc.pendingTransactions
    ∧ bc'.difficulty = bc.difficulty ∧ bc'.miningReward = bc.miningReward := by
  simp only [applyTx] at h
  by_cases c1 : t.type = "transfer"
  · rw [if_pos c1] at h; cases h; exact ⟨rfl, rfl, rfl, rfl⟩
  · rw [if_neg c1] at h
    by_cases c2 : t.type = "mining_reward"
    · rw [if_pos c2] at h; cases h; exact ⟨rfl, rfl, rfl, rfl⟩
    · rw [if_neg c2] at h
      by_cases c3 : t.type = "mint_token"
      · rw [if_pos c3] at h; cases h; exact ⟨rfl, rfl, rfl, rfl⟩
      · rw [if_neg c3] at h
        by_cases c4 : t.type = "transfer_token"
        · rw [if_pos c4] at h
          exact transferToken_ok_fields bc bc' t.tokenName t.from_ t.to_ t.amount h
        · rw [if_neg c4] at h; cases h; exact ⟨rfl, rfl, rfl, rfl⟩

theorem applyTxs_fields : ∀ (l : List Transaction) (bc : Blockchain),
    (applyTxs bc l).1.chain = bc.chain
    ∧ (applyTxs bc l).1.pendingTransactions = bc.pendingTransactions
    ∧ (applyTxs bc l).1.difficulty = bc.difficulty
    ∧ (applyTxs bc l).1.miningReward = bc.miningReward := by
  intro l
  induction l with
  | nil => intro bc; exact ⟨rfl, rfl, rfl, rfl⟩
  | cons t rest ih =>
    intro bc
    simp only [applyTxs]
    cases hap : applyTx bc t with
    | ok bc1 =>
      have hf := applyTx_ok_fields bc bc1 t hap
      have hr := ih bc1
      exact ⟨hr.1.trans hf.1, hr.2.1.trans hf.2.1, hr.2.2.1.trans hf.2.2.1,
        hr.2.2.2.trans hf.2.2.2⟩
    | error e => exact ⟨rfl, rfl, rfl, rfl⟩

theorem updateBalances_fields (bc : Blockchain) (b : Block) :
    (updateBalances bc b).1.chain = bc.chain
    ∧ (updateBalances bc b).1.pendingTransactions = bc.pendingTransactions
    ∧ (updateBalances bc b).1.difficulty = bc.difficulty
    ∧ (updateBalances bc b).1.miningReward = bc.miningReward :=
  applyTxs_fields b.transactions bc

theorem mine_anatomy (sha : String → String) {fuel : Nat} {bc bc' : Blockchain}
    {addr : String} {blockTs txTs : Nat} {e : Option Err}
    (h : minePendingTransactions sha fuel bc addr blockTs txTs = some (bc', e)) :
    ∃ block : Block,
      bc'.chain = bc.chain ++ [block]
      ∧ block.hash = Block.calculateHash sha block
      ∧ block.previousHash = (getLatestBlock bc).hash
      ∧ block.transactions
          = bc.pendingTransactions
            ++ [newTransaction none (some addr) bc.miningReward "mining_reward" "" txTs none]
      ∧ block.difficulty = 4
      ∧ substringTo block.hash bc.difficulty = zeroTarget bc.difficulty
      ∧ block.reward = calculateReward block
      ∧ block.miner = some addr
      ∧ (e = none → bc'.pendingTransactions = []) := by
  simp only [minePendingTransactions] at h
  split at h
  · cases h
  · rename_i block heq
    have hs := mineBlock_spec sha fuel bc.difficulty addr _ block
      (newBlock_hash sha blockTs _ ((getLatestBlock bc).hash)) heq
    have htx : block.transactions
        = bc.pendingTransactions
          ++ [newTransaction none (some addr) bc.miningReward "mining_reward" "" txTs none] :=
      hs.2.2.2.2.2.1.trans (newBlock_transactions sha blockTs _ _)
    have hprev : block.previousHash = (getLatestBlock bc).hash :=
      hs.2.2.2.2.2.2.1.trans (newBlock_previousHash sha blockTs _ _)
    have hdiff : block.difficulty = 4 :=
      hs.2.2.2.2.2.2.2.trans (newBlock_difficulty sha blockTs _ _)
    split at h
    · rename_i bc2 e2 heq2
      cases h
      have hfields := updateBalances_fields
        { bc with chain := bc.chain ++ [block],
                  pendingTransactions := bc.pendingTransactions
                    ++ [newTransaction none (some addr) bc.miningReward "mining_reward" "" txTs none] }
        block
      rw [heq2] at hfields
      refine ⟨block, hfields.1, hs.2.1, hprev, htx, hdiff, hs.1, hs.2.2.2.1, hs.2.2.1, ?_⟩
      intro hc; cases hc
    · rename_i bc2 heq2
      cases h
      have hfields := updateBalances_fields
        { bc with chain := bc.chain ++ [block],
                  pendingTransactions := bc.pendingTransactions
                    ++ [newTransaction none (some addr) bc.miningReward "mining_reward" "" txTs none] }
        block
      rw [heq2] at hfields
      exact ⟨block, hfields.1, hs.2.1, hprev, htx, hdiff, hs.1, hs.2.2.2.1, hs.2.2.1,
        fun _ => rfl⟩


/-! ### Chain validity invariant -/

theorem chainSegValid_cons (sha : String → String) (prev x : Block) (l : List Block) :
    chainSegValid sha prev (x :: l)
      = ((x.hasValidTransactions && x.hash == Block.calculateHash sha x
          && x.previousHash == prev.hash) && chainSegValid sha x l) := rfl

theorem chainSegValid_append (sha : String → String) (b : Block) :
    ∀ (l : List Block) (prev : Block),
      chainSegValid sha prev (l ++ [b])
        = (chainSegValid sha prev l
           && (b.hasValidTransactions && b.hash == Block.calculateHash sha b
               && b.previousHash == (l.getLastD prev).hash)) := by
  intro l
  induction l with
  | nil => intro prev; simp [chainSegValid, List.getLastD]
  | cons x xs ih =>
    intro prev
    rw [List.cons_append, chainSegValid_cons, chainSegValid_cons, ih x,
      List.getLastD_cons]
    simp [Bool.and_assoc]

theorem isChainValid_of_chain (sha : String → String) (bc : Blockchain) (g : Block)
    (rest : List Block) (h : bc.chain = g :: rest) :
    isChainValid sha bc = chainSegValid sha g rest := by
  simp [isChainValid, h]

theorem rewardTx_isValid (addr : String) (r : ℚ) (ts : Nat) :
    (newTransaction none (some addr) r "mining_reward" "" ts none).isValid = true := by
  simp [Transaction.isValid, newTransaction]

theorem reachable_good (sha : String → String) (gts : Nat) :
    ∀ bc : Blockchain, Reachable sha gts bc →
      bc.chain ≠ [] ∧ isChainValid sha bc = true
      ∧ ∀ t ∈ bc.pendingTransactions, t.isValid = true := by
  intro bc h
  induction h with
  | init =>
    refine ⟨by simp [newBlockchain], rfl, ?_⟩
    intro t ht
    simp [newBlockchain] at ht
  | @addTx bc0 bc1 t hr hok ih =>
    obtain ⟨hv, heq⟩ := addTransaction_ok bc0 bc1 t hok
    subst heq
    refine ⟨ih.1, ih.2.1, ?_⟩
    intro t' ht'
    have ht2 : t' ∈ bc0.pendingTransactions ++ [t] := ht'
    rcases List.mem_append.1 ht2 with h1 | h1
    · exact ih.2.2 t' h1
    · rw [List.mem_singleton.1 h1]
      exact hv
  | @mine bc0 bc1 fuel addr blockTs txTs hr hm ih =>
    obtain ⟨block, hchain, hhash, hprev, htx, hdiff, hsub, hrew, hminer, hpend⟩ :=
      mine_anatomy sha hm
    have hpend' := hpend rfl
    obtain ⟨g, rest, hc⟩ : ∃ g rest, bc0.chain = g :: rest := by
      cases hcc : bc0.chain with
      | nil => exact absurd hcc ih.1
      | cons g rest => exact ⟨g, rest, rfl⟩
    have hvalid : Block.hasValidTransactions block = true := by
      simp only [Block.hasValidTransactions]
      rw [htx, List.all_append, Bool.and_eq_true]
      refine ⟨?_, ?_⟩
      · rw [List.all_eq_true]
        intro t ht
        exact ih.2.2 t ht
      · simp [rewardTx_isValid]
    have hlast : (getLatestBlock bc0).hash = (rest.getLastD g).hash := by
      rw [getLatestBlock, hc, List.getLastD_cons]
    have hold : chainSegValid sha g rest = true := by
      have h2 := ih.2.1
      rwa [isChainValid_of_chain sha bc0 g rest hc] at h2
    refine ⟨?_, ?_, ?_⟩
    · rw [hchain, hc]; simp
    · have hc1 : bc1.chain = g :: (rest ++ [block]) := by rw [hchain, hc]; rfl
      rw [isChainValid_of_chain sha bc1 g (rest ++ [block]) hc1,
        chainSegValid_append, hold]
      simp [hvalid, hhash, hprev, hlast]
    · intro t' ht'
      rw [hpend'] at ht'
      simp at ht'
  | @tok bc0 bc1 n s sup c now hr hok ih =>
    obtain ⟨hc, hp⟩ := createToken_ok bc0 bc1 n s sup c now hok
    refine ⟨?_, ?_, ?_⟩
    · rw [hc]; exact ih.1
    · cases hcc : bc0.chain with
      | nil => exact absurd hcc ih.1
      | cons g rest =>
        rw [isChainValid_of_chain sha bc1 g rest (hc.trans hcc)]
        have h2 := ih.2.1
        rwa [isChainValid_of_chain sha bc0 g rest hcc] at h2
    · intro t' ht'
      rw [hp] at ht'
      exact ih.2.2 t' ht'

/-- C1: every chain state reachable from a freshly constructed `Blockchain`
by normally-returning `addTransaction`, `minePendingTransactions` and
`createToken` calls satisfies `isChainValid() = true`; in particular the
fresh chain is valid and consists of exactly the genesis block, which has
`previousHash = "0"` and no transactions. -/
theorem claim1_reachable_isChainValid (sha : String → String) (gts : Nat) :
    (∀ bc : Blockchain, Reachable sha gts bc → isChainValid sha bc = true)
    ∧ isChainValid sha (newBlockchain sha gts) = true
    ∧ (newBlockchain sha gts).chain = [createGenesisBlock sha gts]
    ∧ (createGenesisBlock sha gts).previousHash = "0"
    ∧ (createGenesisBlock sha gts).transactions = [] :=
  ⟨fun bc h => (reachable_good sha gts bc h).2.1, rfl, rfl, rfl, rfl⟩

def bcW1 : Blockchain :=
  mineOk (minePendingTransactions sha0 1 (newBlockchain sha0 0) "W" 1 1)
    (newBlockchain sha0 0)

/-- Witness for C1: the state after mining one block on a fresh chain is
reachable and the chain remains valid. -/
theorem claim1_reachable_isChainValid_witness : isChainValid sha0 bcW1 = true :=
  (claim1_reachable_isChainValid sha0 0).1 bcW1
    (Reachable.mine Reachable.init
      (show minePendingTransactions sha0 1 (newBlockchain sha0 0) "W" 1 1
          = some (bcW1, none) by rfl'))

/-- C3: for a `transfer` transaction that passes the party and signature
checks, `addTransaction` fails with `InsufficientFunds` exactly when the
sender's committed balance is strictly below `amount + fee`; on failure
nothing is modified (the call returns the error before any mutation), and
on success the transaction is appended to the pending pool. -/
theorem claim3_insufficientFunds_iff (bc : Blockchain) (t : Transaction)
    (f g : String) (hf : t.from_ = some f) (hf' : f ≠ "")
    (hg : t.to_ = some g) (hg' : g ≠ "")
    (hty : t.type = "transfer") (hv : t.isValid = true) :
    (addTransaction bc t = .error .insufficientFunds
       ↔ getBalance bc f < t.amount + t.fee)
    ∧ (¬ getBalance bc f < t.amount + t.fee
       → addTransaction bc t
           = .ok { bc with pendingTransactions := bc.pendingTransactions ++ [t] }) := by
  have h1 : ¬ ((optFalsy t.from_ || optFalsy t.to_) = true) := by
    simp [optFalsy, hf, hg, hf', hg']
  have h2 : ¬ ((! t.isValid) = true) := by simp [hv]
  have hbal : getBalanceK bc t.from_ = getBalance bc f := by
    rw [getBalance, hf]
  have hok : ¬ getBalance bc f < t.amount + t.fee →
      addTransaction bc t
        = .ok { bc with pendingTransactions := bc.pendingTransactions ++ [t] } := by
    intro hn
    unfold addTransaction
    rw [if_neg h1, if_neg h2, if_neg (fun hcon => hn (by rw [← hbal]; exact hcon.2))]
  refine ⟨⟨?_, ?_⟩, hok⟩
  · intro he
    by_contra hn
    rw [hok hn] at he
    cases he
  · intro hlt
    unfold addTransaction
    rw [if_neg h1, if_neg h2, if_pos ⟨hty, by rw [hbal]; exact hlt⟩]

def txW3 : Transaction :=
  signed (newTransaction (some "A") (some "B") 50 "transfer" "" 2 none) "sig"

/-- Witness for C3: a transfer of 50 from an address with committed
balance 0 is rejected with `InsufficientFunds`. -/
theorem claim3_insufficientFunds_iff_witness :
    addTransaction (newBlockchain sha0 0) txW3 = .error .insufficientFunds :=
  (claim3_insufficientFunds_iff (newBlockchain sha0 0) txW3 "A" "B"
    rfl (by decide) rfl (by decide) rfl (by rfl')).1.mpr
    (by with_unfolding_all decide)

/-- C4 (amended): the `from`-presence check of `addTransaction` applies to
every transaction kind; a system-issued transaction (`mining_reward` or
`mint_token`) with an absent `from` is rejected with `MissingParties`.
What system kinds do bypass is only the signature requirement:
`isValid()` is true for them without any signature. -/
theorem claim4_system_tx_missingParties (bc : Blockchain) (t : Transaction)
    (hk : t.type = "mining_reward" ∨ t.type = "mint_token")
    (hf : optFalsy t.from_ = true) :
    addTransaction bc t = .error .missingParties ∧ t.isValid = true := by
  have hv : t.isValid = true := by
    unfold Transaction.isValid
    rw [if_pos hk]
  refine ⟨?_, hv⟩
  have hcond : (optFalsy t.from_ || optFalsy t.to_) = true := by rw [hf]; rfl
  unfold addTransaction
  rw [if_pos hcond]

def rtxC4 : Transaction := newTransaction none (some "M") 10 "mining_reward" "" 0 none

/-- C4 counterexample: the `mining_reward` transaction with `from = null`
and a present `to` — exactly the shape `minePendingTransactions`
synthesizes — is NOT accepted by `addTransaction`: it throws
`MissingParties`, and the pool stays empty.  (Reward transactions reach a
block only because `minePendingTransactions` pushes them into the pool
directly, bypassing `addTransaction`.) -/
theorem claim4_counterexample :
    rtxC4.type = "mining_reward" ∧ rtxC4.from_ = none ∧ rtxC4.to_ = some "M"
    ∧ addTransaction (newBlockchain sha0 0) rtxC4 = .error .missingParties
    ∧ (newBlockchain sha0 0).pendingTransactions = [] := by
  refine ⟨rfl, rfl, rfl, by rfl', rfl⟩

/-- Witness for the amended C4 at the concrete reward transaction. -/
theorem claim4_system_tx_missingParties_witness :
    addTransaction (newBlockchain sha0 0) rtxC4 = .error .missingParties
    ∧ rtxC4.isValid = true :=
  claim4_system_tx_missingParties (newBlockchain sha0 0) rtxC4 (Or.inl rfl) rfl

/-- C5 (amended): when the pending pool holds exactly one `transfer_token`
transaction whose sender's token balance is below the transferred amount,
`minePendingTransactions` does raise `InsufficientTokenBalance` at commit
time — but the failed commit does NOT leave the state unchanged: the mined
block stays appended to the chain and the pool keeps the old transaction
plus the synthesized reward transaction (it is not cleared).  Balances and
token maps are unchanged only because the failing transaction is the first
one applied. -/
theorem claim5_tokenTransfer_commit (sha : String → String) (fuel : Nat)
    (bc bc' : Blockchain) (addr : String) (blockTs txTs : Nat) (e : Option Err)
    (tx : Transaction) (hpool : bc.pendingTransactions = [tx])
    (hty : tx.type = "transfer_token")
    (hbal : mget (mget bc.tokens tx.from_ []) tx.tokenName 0 < tx.amount)
    (h : minePendingTransactions sha fuel bc addr blockTs txTs = some (bc', e)) :
    e = some .insufficientTokenBalance
    ∧ (∃ block : Block, bc'.chain = bc.chain ++ [block])
    ∧ bc'.pendingTransactions
        = bc.pendingTransactions
          ++ [newTransaction none (some addr) bc.miningReward "mining_reward" "" txTs none]
    ∧ bc'.balances = bc.balances
    ∧ bc'.tokens = bc.tokens := by
  simp only [minePendingTransactions] at h
  split at h
  · cases h
  · rename_i block heq
    have hs := mineBlock_spec sha fuel bc.difficulty addr _ block
      (newBlock_hash sha blockTs _ ((getLatestBlock bc).hash)) heq
    have htxs : block.transactions
        = tx :: [newTransaction none (some addr) bc.miningReward "mining_reward" "" txTs none] := by
      rw [hs.2.2.2.2.2.1, newBlock_transactions, hpool]
      rfl
    have c1 : ¬ tx.type = "transfer" := by rw [hty]; decide
    have c2 : ¬ tx.type = "mining_reward" := by rw [hty]; decide
    have c3 : ¬ tx.type = "mint_token" := by rw [hty]; decide
    set bc1 : Blockchain :=
      { bc with chain := bc.chain ++ [block],
                pendingTransactions := bc.pendingTransactions
                  ++ [newTransaction none (some addr) bc.miningReward "mining_reward" "" txTs none] }
      with hbc1
    have happ : applyTx bc1 tx = .error .insufficientTokenBalance := by
      simp only [applyTx]
      rw [if_neg c1, if_neg c2, if_neg c3, if_pos hty]
      simp only [transferToken]
      rw [if_pos hbal]
    have happs : updateBalances bc1 block = (bc1, some .insufficientTokenBalance) := by
      rw [updateBalances, htxs]
      simp only [applyTxs, happ]
    split at h
    · rename_i bc2 e2 heq2
      cases h
      rw [happs] at heq2
      injection heq2 with hb he
      subst hb
      injection he with he2
      subst he2
      exact ⟨rfl, ⟨block, rfl⟩, rfl, rfl, rfl⟩
    · rename_i bc2 heq2
      rw [happs] at heq2
      cases heq2

def bcC5a : Blockchain :=
  exOk (createToken (newBlockchain sha0 0) "Gold" "GLD" 200 "A" 1) (newBlockchain sha0 0)

def txC5 : Transaction :=
  signed (newTransaction (some "A") (some "B") 500 "transfer_token" "Gold" 2 none) "sg"

def bcC5b : Blockchain := exOk (addTransaction bcC5a txC5) bcC5a

def bcC5c : Blockchain := mineOk (minePendingTransactions sha0 1 bcC5b "M" 3 3) bcC5b

/-- C5 counterexample: a `transfer_token` of 500 against a token balance of
200 does raise `InsufficientTokenBalance` at commit — but the pool and the
chain are NOT left unchanged by the failed commit: the chain grows from 1
to 2 blocks and the pool grows from 1 to 2 entries (old transaction plus
the synthesized reward transaction). -/
theorem claim5_counterexample :
    getTokenBalance bcC5b "A" "Gold" = 200
    ∧ txC5.amount = 500
    ∧ minePendingTransactions sha0 1 bcC5b "M" 3 3
        = some (bcC5c, some .insufficientTokenBalance)
    ∧ bcC5b.chain.length = 1
    ∧ bcC5c.chain.length = 2
    ∧ bcC5b.pendingTransactions.length = 1
    ∧ bcC5c.pendingTransactions.length = 2 := by
  refine ⟨by rfl', rfl, by rfl', by rfl', by rfl', by rfl', by rfl'⟩

/-- Witness for the amended C5 at the concrete 500-versus-200 scenario. -/
theorem claim5_tokenTransfer_commit_witness :
    (some Err.insufficientTokenBalance : Option Err) = some .insufficientTokenBalance
    ∧ (∃ block : Block, bcC5c.chain = bcC5b.chain ++ [block])
    ∧ bcC5c.pendingTransactions
        = bcC5b.pendingTransactions
          ++ [newTransaction none (some "M") bcC5b.miningReward "mining_reward" "" 3 none]
    ∧ bcC5c.balances = bcC5b.balances
    ∧ bcC5c.tokens = bcC5b.tokens :=
  claim5_tokenTransfer_commit sha0 1 bcC5b bcC5c "M" 3 3
    (some .insufficientTokenBalance) txC5 (by rfl') rfl
    (by with_unfolding_all decide) (by rfl')

/-! ### Balance conservation -/

/-- The balance map produced by the `transfer` arm of `updateBalances`:
both old balances are read first, then the sender is debited
`amount + fee` and the receiver credited `amount` (two `Map.set` calls in
this order, so for `from == to` the second overwrites the first). -/
def transferBalances (s : Blockchain) (tx : Transaction) : List (Option String × ℚ) :=
  mset (mset s.balances tx.from_ (mget s.balances tx.from_ 0 - tx.amount - tx.fee))
    tx.to_ (mget s.balances tx.to_ 0 + tx.amount)

/-- The balance map produced by the `mining_reward` arm of `updateBalances`. -/
def rewardBalances (s : Blockchain) (rtx : Transaction) : List (Option String × ℚ) :=
  mset s.balances rtx.to_ (mget s.balances rtx.to_ 0 + rtx.amount)

theorem msum_transferBalances (s : Blockchain) (tx : Transaction)
    (hne : tx.from_ ≠ tx.to_) :
    msum (transferBalances s tx) = msum s.balances - tx.fee := by
  unfold transferBalances
  rw [msum_mset, msum_mset, mget_mset_ne _ _ _ _ _ (Ne.symm hne)]
  ring

theorem msum_rewardBalances (s : Blockchain) (rtx : Transaction) :
    msum (rewardBalances s rtx) = msum s.balances + rtx.amount := by
  unfold rewardBalances
  rw [msum_mset]
  ring

theorem applyTxs_transfer_reward (s : Blockchain) (tx rtx : Transaction)
    (hty : tx.type = "transfer") (hne : tx.from_ ≠ tx.to_)
    (hrty : rtx.type = "mining_reward") :
    (applyTxs s [tx, rtx]).2 = none
    ∧ msum ((applyTxs s [tx, rtx]).1).balances
        = msum s.balances + rtx.amount - tx.fee := by
  have happ1 : applyTx s tx = .ok { s with balances := transferBalances s tx } := by
    simp only [applyTx]
    rw [if_pos hty]
    rfl
  set s1 : Blockchain := { s with balances := transferBalances s tx } with hs1
  have c2 : ¬ rtx.type = "transfer" := by rw [hrty]; decide
  have happ2 : applyTx s1 rtx = .ok { s1 with balances := rewardBalances s1 rtx } := by
    simp only [applyTx]
    rw [if_neg c2, if_pos hrty]
    rfl
  have hfin : applyTxs s [tx, rtx] = ({ s1 with balances := rewardBalances s1 rtx }, none) := by
    simp only [applyTxs, happ1, happ2]
  rw [hfin]
  refine ⟨rfl, ?_⟩
  show msum (rewardBalances s1 rtx) = msum s.balances + rtx.amount - tx.fee
  rw [msum_rewardBalances]
  have h1 : msum s1.balances = msum s.balances - tx.fee := by
    rw [hs1]
    exact msum_transferBalances s tx hne
  rw [h1]
  ring

/-- C6 (amended): committing a block holding exactly one `transfer`
transaction with fee `f` between two DISTINCT parties plus the synthesized
`mining_reward` of amount `r = miningReward` raises the total balance over
all addresses by exactly `r - f`.  (For a self-transfer, `from == to`, the
second `Map.set` of the applier overwrites the first and the sum instead
grows by `amount + r`.) -/
theorem claim6_conservation (sha : String → String) (fuel : Nat)
    (bc bc' : Blockchain) (addr : String) (blockTs txTs : Nat) (e : Option Err)
    (tx : Transaction) (hpool : bc.pendingTransactions = [tx])
    (hty : tx.type = "transfer") (hne : tx.from_ ≠ tx.to_)
    (h : minePendingTransactions sha fuel bc addr blockTs txTs = some (bc', e)) :
    msum bc'.balances = msum bc.balances + bc.miningReward - tx.fee := by
  simp only [minePendingTransactions] at h
  split at h
  · cases h
  · rename_i block heq
    have hs := mineBlock_spec sha fuel bc.difficulty addr _ block
      (newBlock_hash sha blockTs _ ((getLatestBlock bc).hash)) heq
    have htxs : block.transactions
        = [tx, newTransaction none (some addr) bc.miningReward "mining_reward" "" txTs none] := by
      rw [hs.2.2.2.2.2.1, newBlock_transactions, hpool]
      rfl
    set bc1 : Blockchain :=
      { bc with chain := bc.chain ++ [block],
                pendingTransactions := bc.pendingTransactions
                  ++ [newTransaction none (some addr) bc.miningReward "mining_reward" "" txTs none] }
      with hbc1
    have har := applyTxs_transfer_reward bc1 tx
      (newTransaction none (some addr) bc.miningReward "mining_reward" "" txTs none)
      hty hne rfl
    split at h
    · rename_i bc2 e2 heq2
      exfalso
      rw [updateBalances, htxs] at heq2
      rw [heq2] at har
      cases har.1
    · rename_i bc2 heq2
      cases h
      rw [updateBalances, htxs] at heq2
      rw [heq2] at har
      exact har.2

def bcC6a : Blockchain :=
  mineOk (minePendingTransactions sha0 1 (newBlockchain sha0 0) "A" 1 1)
    (newBlockchain sha0 0)

def txC6 : Transaction :=
  signed (newTransaction (some "A") (some "A") 5 "transfer" "" 2 none) "s6"

def bcC6b : Blockchain := exOk (addTransaction bcC6a txC6) bcC6a

def bcC6c : Blockchain := mineOk (minePendingTransactions sha0 1 bcC6b "M" 3 4) bcC6b

/-- C6 counterexample: for a block whose only transfer is a SELF-transfer
(`from == to == "A"`, accepted by `addTransaction`), the committed sum of
balances grows by `amount + r` (here `5 + 10 = 15`, from 10 to 25), not by
`r - f = 9.999`: the second `Map.set` of the transfer arm overwrites the
debit. -/
theorem claim6_counterexample :
    bcC6b.pendingTransactions = [txC6]
    ∧ txC6.type = "transfer"
    ∧ minePendingTransactions sha0 1 bcC6b "M" 3 4 = some (bcC6c, none)
    ∧ msum bcC6b.balances = 10
    ∧ msum bcC6c.balances = 25
    ∧ msum bcC6c.balances ≠ msum bcC6b.balances + bcC6b.miningReward - txC6.fee := by
  refine ⟨by rfl', rfl, by rfl', by rfl', by with_unfolding_all decide,
    by with_unfolding_all decide⟩

def bcW6a : Blockchain :=
  mineOk (minePendingTransactions sha0 1 (newBlockchain sha0 0) "A" 1 1)
    (newBlockchain sha0 0)

def txW6 : Transaction :=
  signed (newTransaction (some "A") (some "B") 6 "transfer" "" 2 none) "s6w"

def bcW6b : Blockchain := exOk (addTransaction bcW6a txW6) bcW6a

def bcW6c : Blockchain := mineOk (minePendingTransactions sha0 1 bcW6b "M" 3 4) bcW6b

/-- Witness for the amended C6 at a concrete two-party transfer. -/
theorem claim6_conservation_witness :
    msum bcW6c.balances = msum bcW6b.balances + bcW6b.miningReward - txW6.fee :=
  claim6_conservation sha0 1 bcW6b bcW6c "M" 3 4 none txW6 (by rfl') rfl
    (by decide) (by rfl')

def bcC7a : Blockchain :=
  exOk (createToken (newBlockchain sha0 0) "Gold" "GLD" 100 "A" 1) (newBlockchain sha0 0)

def txC7 : Transaction := newTransaction (some "A") (some "A") 1 "mint_token" "Gold" 2 none

def bcC7b : Blockchain := exOk (addTransaction bcC7a txC7) bcC7a

def bcC7c : Blockchain := mineOk (minePendingTransactions sha0 1 bcC7b "M" 3 3) bcC7b

/-- C7: there is a reachable state — `createToken("Gold","GLD",100,"A")`
followed by committing a `mint_token` of 1 — whose circulating "Gold"
balance (101) strictly exceeds the `totalSupply` (100) registered at
creation: minting is not capped against the registered supply. -/
theorem claim7_mint_exceeds_totalSupply :
    Reachable sha0 0 bcC7c
    ∧ (mfind bcC7c.tokenInfo "Gold").map TokenInfo.totalSupply = some 100
    ∧ tokenCirculation bcC7c "Gold" = 101
    ∧ (100 : ℚ) < tokenCirculation bcC7c "Gold" := by
  refine ⟨?_, by rfl', by rfl', by with_unfolding_all decide⟩
  exact Reachable.mine
    (Reachable.addTx
      (Reachable.tok Reachable.init
        (show createToken (newBlockchain sha0 0) "Gold" "GLD" 100 "A" 1 = .ok bcC7a
          by rfl'))
      (show addTransaction bcC7a txC7 = .ok bcC7b by rfl'))
    (show minePendingTransactions sha0 1 bcC7b "M" 3 3 = some (bcC7c, none) by rfl')

/-- C8 (amended): every block committed by `minePendingTransactions` has
its hash satisfying the chain difficulty in force when it was mined, but
its stored `difficulty` field is the constant 4 written by the `Block`
constructor — it records the difficulty actually used only when that
difficulty happens to be 4. -/
theorem claim8_difficulty_field (sha : String → String) (fuel : Nat)
    (bc bc' : Blockchain) (addr : String) (blockTs txTs : Nat) (e : Option Err)
    (h : minePendingTransactions sha fuel bc addr blockTs txTs = some (bc', e)) :
    ∃ block : Block,
      bc'.chain = bc.chain ++ [block]
      ∧ block.difficulty = 4
      ∧ substringTo block.hash bc.difficulty = zeroTarget bc.difficulty := by
  obtain ⟨block, hchain, _, _, _, hdiff, hsub, _, _, _⟩ := mine_anatomy sha h
  exact ⟨block, hchain, hdiff, hsub⟩

def shaC8 : String → String := fun _ => "00ab"

def bcC8 : Blockchain := { newBlockchain shaC8 0 with difficulty := 2 }

def bcC8m : Blockchain := mineOk (minePendingTransactions shaC8 1 bcC8 "M" 1 1) bcC8

def blkC8 : Block := bcC8m.chain.getLastD dummyBlock

/-- C8 counterexample: with the chain difficulty set to 2 (the repository
mutates `blockchain.difficulty` through `Miner.setDifficulty` and the
console menu), the committed block's hash satisfies difficulty 2, yet its
stored `difficulty` field reads 4 — it is neither the difficulty in force
when the block was mined nor a difficulty its hash satisfies. -/
theorem claim8_counterexample :
    bcC8.difficulty = 2
    ∧ minePendingTransactions shaC8 1 bcC8 "M" 1 1 = some (bcC8m, none)
    ∧ blkC8.difficulty = 4
    ∧ blkC8.difficulty ≠ bcC8.difficulty
    ∧ substringTo blkC8.hash bcC8.difficulty = zeroTarget bcC8.difficulty
    ∧ substringTo blkC8.hash blkC8.difficulty ≠ zeroTarget blkC8.difficulty := by
  refine ⟨rfl, by rfl', by rfl', by with_unfolding_all decide, by rfl',
    by with_unfolding_all decide⟩

/-- Witness for the amended C8 at a concrete difficulty-4 mine. -/
theorem claim8_difficulty_field_witness :
    ∃ block : Block,
      bcW1.chain = (newBlockchain sha0 0).chain ++ [block]
      ∧ block.difficulty = 4
      ∧ substringTo block.hash (newBlockchain sha0 0).difficulty
          = zeroTarget (newBlockchain sha0 0).difficulty :=
  claim8_difficulty_field sha0 1 (newBlockchain sha0 0) bcW1 "W" 1 1 none (by rfl')

def bcC9a : Blockchain :=
  mineOk (minePendingTransactions sha0 1 (newBlockchain sha0 0) "A" 1 1)
    (newBlockchain sha0 0)

def txC9a : Transaction :=
  signed (newTransaction (some "A") (some "B") 6 "transfer" "" 2 none) "s9a"

def txC9b : Transaction :=
  signed (newTransaction (some "A") (some "B") 6 "transfer" "" 3 none) "s9b"

def bcC9b : Blockchain := exOk (addTransaction bcC9a txC9a) bcC9a

def bcC9c : Blockchain := exOk (addTransaction bcC9b txC9b) bcC9b

def bcC9d : Blockchain := mineOk (minePendingTransactions sha0 1 bcC9c "M" 4 5) bcC9c

/-- C9: the state applier re-checks nothing at commit time, so two pending
transfers from one sender that jointly overspend its committed balance
(here two transfers of 6 + fee 0.001 each against a balance of 10, each
individually accepted by `addTransaction`) drive the sender's committed
balance strictly negative after `minePendingTransactions` returns; the
final state is reachable by ordinary API calls. -/
theorem claim9_negative_balance :
    Reachable sha0 0 bcC9d
    ∧ getBalance bcC9a "A" = 10
    ∧ 10 < txC9a.amount + txC9a.fee + (txC9b.amount + txC9b.fee)
    ∧ getBalance bcC9d "A" < 0 := by
  refine ⟨?_, by rfl', by with_unfolding_all decide, by with_unfolding_all decide⟩
  exact Reachable.mine
    (Reachable.addTx
      (Reachable.addTx
        (Reachable.mine Reachable.init
          (show minePendingTransactions sha0 1 (newBlockchain sha0 0) "A" 1 1
              = some (bcC9a, none) by rfl'))
        (show addTransaction bcC9a txC9a = .ok bcC9b by rfl'))
      (show addTransaction bcC9b txC9b = .ok bcC9c by rfl'))
    (show minePendingTransactions sha0 1 bcC9c "M" 4 5 = some (bcC9d, none) by rfl')

/-- C10: the reward transaction synthesized by `minePendingTransactions`
carries no fee override, so its fee is `calculateFee(10) =
max(0.001, 10 * 0.0001) = 0.001`; mining with an empty pending pool
therefore commits a block whose transactions are exactly the reward
transaction and whose reward is `10 + 0.001 = 10.001 > 10`. -/
theorem claim10_empty_pool_reward (sha : String → String) (fuel : Nat)
    (bc bc' : Blockchain) (addr : String) (blockTs txTs : Nat) (e : Option Err)
    (hpool : bc.pendingTransactions = []) (hmr : bc.miningReward = 10)
    (h : minePendingTransactions sha fuel bc addr blockTs txTs = some (bc', e)) :
    ∃ block : Block,
      bc'.chain = bc.chain ++ [block]
      ∧ block.transactions = [newTransaction none (some addr) 10 "mining_reward" "" txTs none]
      ∧ (newTransaction none (some addr) 10 "mining_reward" "" txTs none).fee
          = calculateFee 10
      ∧ calculateFee 10 = 0.001
      ∧ block.reward = 10.001
      ∧ (10 : ℚ) < block.reward := by
  obtain ⟨block, hchain, _, _, htx, _, _, hrw, _, _⟩ := mine_anatomy sha h
  rw [hpool, hmr] at htx
  have htx' : block.transactions
      = [newTransaction none (some addr) 10 "mining_reward" "" txTs none] := by
    simpa using htx
  have hfee : (newTransaction none (some addr) 10 "mining_reward" "" txTs none).fee
      = calculateFee 10 := rfl
  have hcf : calculateFee (10 : ℚ) = 0.001 := by
    simp only [calculateFee]
    norm_num
  have hrwd : block.reward = 10.001 := by
    rw [hrw]
    simp only [calculateReward]
    rw [htx', foldl_fee]
    rw [List.map_singleton, List.sum_singleton, hfee, hcf]
    norm_num
  exact ⟨block, hchain, htx', hfee, hcf, hrwd, by rw [hrwd]; norm_num⟩

def bcW10 : Blockchain :=
  mineOk (minePendingTransactions sha0 1 (newBlockchain sha0 0) "M" 1 1)
    (newBlockchain sha0 0)

/-- Witness for C10: mining on a fresh (empty-pool) chain. -/
theorem claim10_empty_pool_reward_witness :
    ∃ block : Block,
      bcW10.chain = (newBlockchain sha0 0).chain ++ [block]
      ∧ block.transactions = [newTransaction none (some "M") 10 "mining_reward" "" 1 none]
      ∧ (newTransaction none (some "M") 10 "mining_reward" "" 1 none).fee = calculateFee 10
      ∧ calculateFee 10 = 0.001
      ∧ block.reward = 10.001
      ∧ (10 : ℚ) < block.reward :=
  claim10_empty_pool_reward sha0 1 (newBlockchain sha0 0) bcW10 "M" 1 1 none
    rfl rfl (by rfl')
